import Mathlib

/-!
Verification of the AI image renamer core: a shallow embedding of the
item collection, the per-item generation controller, the batch sequencer,
the filename sanitizer and the export writers, with theorems settling the
specification claims about them.

Strings from the source are modelled as Lean `String`s; the per-character
regex pipelines of the source are modelled as functions over `List Char`.
-/

/-- Whitespace test modelling the JS regex class used by the sanitizer
(space, tab, LF, VT, FF, CR, NBSP, BOM). -/
def jsWs (c : Char) : Bool :=
  c.toNat = 32 || c.toNat = 9 || c.toNat = 10 || c.toNat = 11 ||
  c.toNat = 12 || c.toNat = 13 || c.toNat = 160 || c.toNat = 65279

/-- ASCII lowercasing of one character, modelling `String.prototype.toLowerCase`
on the characters the sanitizer cares about. -/
def jsToLowerChar (c : Char) : Char :=
  if 65 ≤ c.toNat ∧ c.toNat ≤ 90 then Char.ofNat (c.toNat + 32) else c

/-- Lowercase a whole string character by character. -/
def jsToLowerStr (s : String) : String := String.mk (s.data.map jsToLowerChar)

/-- Membership in the character class `[a-z0-9-]` of the sanitizer. -/
def isAllowedChar (c : Char) : Bool :=
  (97 ≤ c.toNat && c.toNat ≤ 122) || (48 ≤ c.toNat && c.toNat ≤ 57) || c.toNat = 45

/-- Both-ends whitespace trim, modelling `String.prototype.trim`. -/
def trimList (l : List Char) : List Char :=
  ((l.dropWhile jsWs).reverse.dropWhile jsWs).reverse

/-- Replace every maximal run of characters satisfying `p` by the single
character `rep`; the flag records whether the previous character was in a run. -/
def collapseAux (p : Char → Bool) (rep : Char) : Bool → List Char → List Char
  | _, [] => []
  | inRun, c :: cs =>
    if p c then
      if inRun then collapseAux p rep true cs else rep :: collapseAux p rep true cs
    else c :: collapseAux p rep false cs

/-- Replace runs: models `replace(/X+/g, rep)` for a character class `X`. -/
def collapseRuns (p : Char → Bool) (rep : Char) (l : List Char) : List Char :=
  collapseAux p rep false l

/-- Remove one leading hyphen if present, half of `replace(/^-|-$/g, '')`. -/
def dropLeadHyphen (l : List Char) : List Char :=
  match l with
  | c :: cs => if c = '-' then cs else c :: cs
  | [] => []

/-- Remove one trailing hyphen if present. -/
def stripTrailHyphen (l : List Char) : List Char :=
  (dropLeadHyphen l.reverse).reverse

/-- Remove one leading and one trailing hyphen: `replace(/^-|-$/g, '')`. -/
def stripEdgeHyphens (l : List Char) : List Char :=
  stripTrailHyphen (dropLeadHyphen l)

/-- The sanitizer pipeline of `generateImageDetails`: trim, lowercase,
whitespace runs to a single hyphen, strip characters outside `[a-z0-9-]`,
collapse hyphen runs, trim edge hyphens. -/
def sanitizeChars (l : List Char) : List Char :=
  stripEdgeHyphens (collapseRuns (fun c => c == '-') '-'
    (List.filter isAllowedChar
      (collapseRuns jsWs '-' (List.map jsToLowerChar (trimList l)))))

/-- String form of the sanitizer pipeline. -/
def sanitize (s : String) : String := String.mk (sanitizeChars s.data)

/-- Decimal digit character for a value below ten. -/
def decDigit (n : Nat) : Char := Char.ofNat (48 + n)

/-- Decimal digits of a natural number, most significant first, with fuel. -/
def natDigitsAux : Nat → Nat → List Char
  | 0, _ => []
  | fuel + 1, n =>
    if n < 10 then [decDigit n]
    else natDigitsAux fuel (n / 10) ++ [decDigit (n % 10)]

/-- Decimal rendering of a natural number, modelling JS number-to-string
interpolation on the nonnegative integers the app uses. -/
def jsNatRepr (n : Nat) : String := String.mk (natDigitsAux (n + 1) n)

/-- The fallback filename substituted when sanitization yields the empty
string: the template string `image-<Date.now()>`. -/
def fallbackName (now : Nat) : String := "image-" ++ jsNatRepr now

/-- The filename produced by the generation service from the raw proposed
title: the sanitized title, or the time-derived fallback when that is empty. -/
def genFilename (rawTitle : String) (now : Nat) : String :=
  let cleanedFilename := sanitize rawTitle
  if cleanedFilename = "" then fallbackName now else cleanedFilename

/-- JS-style list join with a separator, modelling `Array.prototype.join`. -/
def jsJoin (sep : String) : List String → String
  | [] => ""
  | [x] => x
  | x :: xs => x ++ sep ++ jsJoin sep xs

/-- Code-unit lexicographic comparison of character lists, modelling the
default string comparison used by `Array.prototype.sort()`. -/
def lexLe : List Char → List Char → Bool
  | [], _ => true
  | _ :: _, [] => false
  | a :: as, b :: bs => if a < b then true else if b < a then false else lexLe as bs

/-- String comparison used by the default sort. -/
def strLe (a b : String) : Bool := lexLe a.data b.data

/-- Sorting a keyword array ascending, modelling `keywords.sort()`. -/
def sortStrings (l : List String) : List String :=
  List.insertionSort (fun a b => strLe a b = true) l

/-- A keyword collection satisfying the spec invariant: sorted ascending
and free of duplicates. -/
def KeywordsOK (l : List String) : Prop :=
  List.Sorted (fun a b => strLe a b = true) l ∧ l.Nodup

instance (l : List String) : Decidable (KeywordsOK l) :=
  inferInstanceAs (Decidable (List.Sorted (fun a b => strLe a b = true) l ∧ l.Nodup))

/-- Substring test on character lists, modelling `String.prototype.includes`. -/
def containsSub (hay needle : List Char) : Bool :=
  match hay with
  | [] => needle.isEmpty
  | c :: t => needle.isPrefixOf (c :: t) || containsSub t needle

/-- Test whether one string starts with another, modelling
`String.prototype.startsWith`. -/
def strStartsWith (s pre : String) : Bool := pre.data.isPrefixOf s.data

-- Data model: one uploaded image and its processing state (`ProcessedImage`)

/-- The fields of a browser `File` object the application reads. -/
structure FileData where
  name : String
  lastModified : Nat
  fileType : String
deriving DecidableEq, Repr

/-- The item model: `ProcessedImage` from the application code.  The status
is carried by the independent fields `suggestedName`, `isLoading`, `error`
exactly as in the source.  `file` stands for the opaque binary payload and
`imageUrl` for the preview handle. -/
structure ProcessedImage where
  id : String
  file : FileData
  imageUrl : String
  originalExtension : String
  suggestedName : String
  isLoading : Bool
  error : Option String
  keywords : List String
deriving DecidableEq, Repr

-- Extension capture (`file.name.slice(file.name.lastIndexOf('.'))`)

/-- Position of the last `'.'` in a character list, if any: models the
result of `String.prototype.lastIndexOf('.')` before its `-1` encoding. -/
def lastDotIdx : List Char → Option Nat
  | [] => none
  | c :: cs =>
    match lastDotIdx cs with
    | some j => some (j + 1)
    | none => if c = '.' then some 0 else none

/-- `name.lastIndexOf('.')`: the index of the last dot, or `-1`. -/
def jsLastIndexOfDot (s : String) : Int :=
  match lastDotIdx s.data with
  | some j => (j : Int)
  | none => -1

/-- One-argument `String.prototype.slice`, including the negative-index
wrap-around. -/
def jsSliceFrom (s : String) (i : Int) : String :=
  let n : Int := s.data.length
  let start : Int := if i < 0 then max (n + i) 0 else min i n
  String.mk (s.data.drop start.toNat)

/-- The stored original extension:
`file.name.slice(file.name.lastIndexOf('.'))`. -/
def fileExtOf (name : String) : String := jsSliceFrom name (jsLastIndexOfDot name)

-- Upload (`handleImageUpload`)

/-- The identity token assigned at upload:
the template string `${file.name}-${file.lastModified}-${Math.random()}`,
with the random draw abstracted as the string `rand`. -/
def mkId (f : FileData) (rand : String) : String :=
  f.name ++ "-" ++ jsNatRepr f.lastModified ++ "-" ++ rand

/-- The fresh item built for one uploaded file (the preview handle returned
by `URL.createObjectURL` is modelled as an opaque string). -/
def mkItem (f : FileData) (rand : String) : ProcessedImage :=
  { id := mkId f rand
    file := f
    imageUrl := "blob:" ++ f.name
    originalExtension := fileExtOf f.name
    suggestedName := ""
    isLoading := false
    error := none
    keywords := [] }

/-- `handleImageUpload`: keep only files whose MIME type starts with
`image/` and build one fresh item per kept file; the draw oracle `rnd`
supplies the successive `Math.random()` values starting at index `ctr`. -/
def handleImageUpload (rnd : Nat → String) (ctr : Nat) (files : List FileData) :
    List ProcessedImage :=
  ((files.filter fun f => strStartsWith f.fileType "image/").enumFrom ctr).map
    fun p => mkItem p.2 (rnd p.1)

/-- The collection-affecting user actions relevant to identity uniqueness. -/
inductive AppOp where
  | upload (files : List FileData)
  | remove (id : String)

/-- Upload-session state: the live collection, the number of random draws
consumed so far, and the log of every identity ever assigned. -/
structure UploadState where
  coll : List ProcessedImage
  ctr : Nat
  log : List String
deriving Repr

/-- One step of the upload/remove state machine.  Appending an empty upload
batch is guarded as in the source (`if (newImages.length > 0)`). -/
def stepOp (rnd : Nat → String) (s : UploadState) : AppOp → UploadState
  | .upload files =>
    let newImages := handleImageUpload rnd s.ctr files
    if 0 < newImages.length then
      { coll := s.coll ++ newImages
        ctr := s.ctr + newImages.length
        log := s.log ++ newImages.map fun img => img.id }
    else
      { s with ctr := s.ctr + newImages.length }
  | .remove id =>
    { s with coll := s.coll.filter fun img => img.id != id }

/-- The empty session. -/
def emptyState : UploadState := { coll := [], ctr := 0, log := [] }

/-- Run a sequence of uploads and removals from the empty session. -/
def runOps (rnd : Nat → String) (ops : List AppOp) : UploadState :=
  ops.foldl (stepOp rnd) emptyState

/-- The random suffix of an identity token: the characters after the last
hyphen. -/
def randPart (s : String) : List Char :=
  (s.data.reverse.takeWhile fun c => c ≠ '-').reverse

-- Collection queries and per-item transitions (App component)

/-- `successfulImages`: items whose suggested name is non-empty, whatever
their error or loading flags. -/
def successfulImages (coll : List ProcessedImage) : List ProcessedImage :=
  coll.filter fun img => img.suggestedName != ""

/-- The state update entering generation: set the loading flag, clear the
error, leave every other item alone. -/
def startGeneration (id : String) (coll : List ProcessedImage) : List ProcessedImage :=
  coll.map fun img =>
    if img.id = id then { img with isLoading := true, error := none } else img

/-- The state update applying a successful generation result: store the
filename, store the sorted keyword list, clear the loading flag. -/
def applySuccess (id filename : String) (kws : List String)
    (coll : List ProcessedImage) : List ProcessedImage :=
  coll.map fun img =>
    if img.id = id then
      { img with
          suggestedName := filename
          keywords := sortStrings kws
          isLoading := false }
    else img

/-- The state update applying a failed generation result: store the error
message, clear the loading flag. -/
def applyFailure (id msg : String) (coll : List ProcessedImage) : List ProcessedImage :=
  coll.map fun img =>
    if img.id = id then { img with isLoading := false, error := some msg } else img

-- Generation service (`generateImageDetails`)

/-- The structured result parsed from the external model's JSON response
(after the `|| ''` and `|| []` defaults). -/
structure GenRaw where
  filename : String
  keywords : List String
deriving DecidableEq, Repr

/-- The distinct rate-limit failure text. -/
def rateLimitMessage : String := "Rate limit exceeded. Please wait and retry."

/-- The generic failure text. -/
def genericFailureMessage : String := "Failed to generate details from AI service."

/-- Rate-limit detection: the (already lowercased) textual form of the
failure contains one of the three markers. -/
def isRateLimitText (t : String) : Bool :=
  containsSub t.data "429".data || containsSub t.data "resource_exhausted".data ||
    containsSub t.data "rate limit".data

/-- The catch-block of the service: lowercase the failure text and map it to
the rate-limit message or to the generic message. -/
def classifyError (e : String) : String :=
  if isRateLimitText (jsToLowerStr e) then rateLimitMessage else genericFailureMessage

/-- `generateImageDetails`, with the external call and JSON parse abstracted
as an `Except`: a parsed response (`ok`) has its filename sanitized with
time-derived fallback, any failure (API error or unparseable response,
`error` carrying its textual form) is classified by the catch-block. -/
def generateImageDetails (now : Nat) : Except String GenRaw → Except String GenRaw
  | .ok response =>
    .ok { filename := genFilename response.filename now, keywords := response.keywords }
  | .error err => .error (classifyError err)

-- Per-item generation controller (`handleGenerateNameForImage`)

/-- The per-item controller: look the item up by identity; if absent do
nothing (and issue no external call, second component `false`); otherwise
enter generation and apply the success or failure result.  `outcome` is the
external call's eventual result and `now` the completion instant. -/
def handleGenerateNameForImage (outcome : Except String GenRaw) (now : Nat)
    (id : String) (coll : List ProcessedImage) : List ProcessedImage × Bool :=
  match coll.find? (fun img => img.id == id) with
  | none => (coll, false)
  | some _ =>
    let started := startGeneration id coll
    match generateImageDetails now outcome with
    | .ok details => (applySuccess id details.filename details.keywords started, true)
    | .error msg => (applyFailure id msg started, true)

-- Batch sequencer (`handleGenerateAllNames`)

/-- The batch environment: the eventual outcome and duration of each item's
external call, and an interference function standing for collection edits
performed by the user between batch steps. -/
structure GenEnv where
  outcome : String → Except String GenRaw
  duration : String → Nat
  interfere : Nat → List ProcessedImage → List ProcessedImage

/-- The batch snapshot selection: identities of items with no suggested
name that are not in flight (`!image.suggestedName && !image.isLoading`). -/
def pendingIds (coll : List ProcessedImage) : List String :=
  (coll.filter fun img => img.suggestedName == "" && !img.isLoading).map
    fun img => img.id

/-- The sequential batch loop over a snapshot of identities: at each step
the environment may first edit the collection, then the per-item controller
runs (taking `duration` time when it issues a call), then the loop waits the
1100 ms pacing delay.  Returns the final collection and the trace of
(identity, call start time) pairs for the calls actually issued. -/
def runBatch (env : GenEnv) :
    List String → Nat → Nat → List ProcessedImage →
      List ProcessedImage × List (String × Nat)
  | [], _, _, coll => (coll, [])
  | id :: rest, k, t, coll =>
    let coll1 := env.interfere k coll
    let step := handleGenerateNameForImage (env.outcome id) (t + env.duration id) id coll1
    let wait := if step.2 then t + env.duration id + 1100 else t + 1100
    let next := runBatch env rest (k + 1) wait step.1
    (next.1, if step.2 then (id, t) :: next.2 else next.2)

/-- `handleGenerateAllNames`: snapshot the pending items once, then run the
sequential paced loop over that snapshot. -/
def handleGenerateAllNames (env : GenEnv) (t0 : Nat) (coll : List ProcessedImage) :
    List ProcessedImage × List (String × Nat) :=
  runBatch env (pendingIds coll) 0 t0 coll

/-- The call schedule described by the specification: one call per selected
identity, in order, each next call starting a full pacing delay of 1100 ms
after the previous item's processing completed. -/
def pacedCallSchedule (dur : String → Nat) : List String → Nat → List (String × Nat)
  | [], _ => []
  | id :: rest, t => (id, t) :: pacedCallSchedule dur rest (t + dur id + 1100)

-- Keyword editing (`handleAddKeywords` and friends)

/-- Per-item keyword add: append the not-yet-present keywords and re-sort. -/
def handleAddKeywords (id : String) (keywordsToAdd : List String)
    (coll : List ProcessedImage) : List ProcessedImage :=
  coll.map fun img =>
    if img.id = id then
      let newKeywords := keywordsToAdd.filter fun k => !(img.keywords.contains k)
      if 0 < newKeywords.length then
        { img with keywords := sortStrings (img.keywords ++ newKeywords) }
      else img
    else img

/-- Bulk keyword add over every successful item (the confirmation dialog is
outside the core; the empty-input guards are the source's early return). -/
def handleAddKeywordsToAll (keywordsToAdd : List String)
    (coll : List ProcessedImage) : List ProcessedImage :=
  if keywordsToAdd.length = 0 ∨ (successfulImages coll).length = 0 then coll
  else
    coll.map fun img =>
      if img.suggestedName != "" then
        let newKeywords := keywordsToAdd.filter fun k => !(img.keywords.contains k)
        if 0 < newKeywords.length then
          { img with keywords := sortStrings (img.keywords ++ newKeywords) }
        else img
      else img

/-- Per-item keyword removal. -/
def handleRemoveKeyword (id keywordToRemove : String)
    (coll : List ProcessedImage) : List ProcessedImage :=
  coll.map fun img =>
    if img.id = id then
      { img with keywords := img.keywords.filter fun k => k != keywordToRemove }
    else img

/-- Item removal (the preview-handle release is a resource effect outside
the collection state). -/
def handleRemoveImage (id : String) (coll : List ProcessedImage) :
    List ProcessedImage :=
  coll.filter fun img => img.id != id

-- Tabular export (`handleDownloadCsv`)

/-- One data row: quoted name-plus-extension, then the quoted comma-joined
keyword list. -/
def csvRow (image : ProcessedImage) : String :=
  "\"" ++ image.suggestedName ++ image.originalExtension ++ "\",\"" ++
    jsJoin ", " image.keywords ++ "\""

/-- Sorting the successful items by suggested name; `le` abstracts the
`localeCompare`-based comparator of the source. -/
def sortBySuggestedName (le : String → String → Bool)
    (l : List ProcessedImage) : List ProcessedImage :=
  List.insertionSort (fun a b => le a.suggestedName b.suggestedName = true) l

/-- The CSV text built by `handleDownloadCsv` (the download itself and the
empty-collection early return are presentation effects). -/
def handleDownloadCsv (le : String → String → Bool)
    (coll : List ProcessedImage) : String :=
  let sortedData := sortBySuggestedName le (successfulImages coll)
  let header := "New File Name,Keywords\n"
  let rows := sortedData.map csvRow
  header ++ jsJoin "\n" rows

-- Concrete fixtures used by witness and counterexample theorems

/-- A sample image file. -/
def fileA : FileData := { name := "a.jpg", lastModified := 3, fileType := "image/jpeg" }

/-- A second sample image file. -/
def fileB : FileData := { name := "b.png", lastModified := 4, fileType := "image/png" }

/-- A pending sample item. -/
def itemP1 : ProcessedImage := mkItem fileA "0.1"

/-- Another pending sample item. -/
def itemP2 : ProcessedImage := mkItem fileB "0.2"

/-- A sample item that already has a suggested name. -/
def itemDone : ProcessedImage :=
  { mkItem { name := "c.png", lastModified := 5, fileType := "image/png" } "0.3" with
    suggestedName := "sunset-walk", keywords := ["beach", "sunset"] }

/-- A second named sample item, for sorting. -/
def itemDone2 : ProcessedImage :=
  { mkItem { name := "d.png", lastModified := 6, fileType := "image/png" } "0.4" with
    suggestedName := "city-lights", keywords := ["city"] }

/-- A batch environment with constant outcomes, 7 ms call durations and no
interference. -/
def envC2 : GenEnv :=
  { outcome := fun _ => .ok { filename := "Nice Title", keywords := ["k"] }
    duration := fun _ => 7
    interfere := fun _ c => c }

/-- A draw oracle with pairwise-distinct hyphen-free values. -/
def rndDistinct (n : Nat) : String := String.mk (List.replicate n 'x')

/-- A draw oracle that always returns the same value. -/
def rndConst (_ : Nat) : String := "0.5"

-- Basic character facts

theorem isAllowedChar_not_ws {c : Char} (h : isAllowedChar c = true) : jsWs c = false := by
  simp only [isAllowedChar, Bool.or_eq_true, Bool.and_eq_true, decide_eq_true_eq] at h
  simp only [jsWs, Bool.or_eq_false_iff, decide_eq_false_iff_not]
  omega

theorem isAllowedChar_toLower {c : Char} (h : isAllowedChar c = true) :
    jsToLowerChar c = c := by
  simp only [isAllowedChar, Bool.or_eq_true, Bool.and_eq_true, decide_eq_true_eq] at h
  unfold jsToLowerChar
  rw [if_neg]
  omega

theorem isAllowedChar_hyphen : isAllowedChar '-' = true := by decide

-- Characters of a collapse output

theorem collapseAux_cons_neg (p : Char → Bool) (r : Char) (b : Bool) {c : Char}
    (hc : p c = false) (cs : List Char) :
    collapseAux p r b (c :: cs) = c :: collapseAux p r false cs := by
  cases b <;> simp [collapseAux, hc]

theorem collapseAux_cons_pos_false (p : Char → Bool) (r : Char) {c : Char}
    (hc : p c = true) (cs : List Char) :
    collapseAux p r false (c :: cs) = r :: collapseAux p r true cs := by
  simp [collapseAux, hc]

theorem collapseAux_cons_pos_true (p : Char → Bool) (r : Char) {c : Char}
    (hc : p c = true) (cs : List Char) :
    collapseAux p r true (c :: cs) = collapseAux p r true cs := by
  simp [collapseAux, hc]

theorem collapseAux_mem {p : Char → Bool} {rep : Char} {l : List Char} {flag : Bool}
    {c : Char} (h : c ∈ collapseAux p rep flag l) :
    c = rep ∨ (c ∈ l ∧ p c = false) := by
  induction l generalizing flag with
  | nil => simp [collapseAux] at h
  | cons a as ih =>
    by_cases hp : p a = true
    · cases flag with
      | true =>
        simp only [collapseAux, hp, if_pos] at h
        rcases ih h with h1 | ⟨h2, h3⟩
        · exact Or.inl h1
        · exact Or.inr ⟨List.mem_cons_of_mem _ h2, h3⟩
      | false =>
        simp only [collapseAux, hp, if_pos] at h
        rcases List.mem_cons.mp h with rfl | h'
        · exact Or.inl rfl
        · rcases ih h' with h1 | ⟨h2, h3⟩
          · exact Or.inl h1
          · exact Or.inr ⟨List.mem_cons_of_mem _ h2, h3⟩
    · simp only [collapseAux, hp, if_neg, Bool.false_eq_true, not_false_iff] at h
      rcases List.mem_cons.mp h with rfl | h'
      · exact Or.inr ⟨List.mem_cons_self _ _, Bool.eq_false_iff.mpr hp⟩
      · rcases ih h' with h1 | ⟨h2, h3⟩
        · exact Or.inl h1
        · exact Or.inr ⟨List.mem_cons_of_mem _ h2, h3⟩

/-- In run mode, the first emitted character of a collapse never satisfies `p`. -/
theorem collapseAux_true_head (p : Char → Bool) (r : Char) (l : List Char) :
    ∀ b ∈ (collapseAux p r true l).head?, p b = false := by
  induction l with
  | nil => simp [collapseAux]
  | cons a as ih =>
    by_cases hp : p a = true
    · simpa [collapseAux, hp] using ih
    · intro b hb
      simp only [collapseAux, hp, if_neg, Bool.false_eq_true, not_false_iff,
        List.head?_cons, Option.mem_def, Option.some.injEq] at hb
      subst hb
      exact Bool.eq_false_iff.mpr hp

/-- No two adjacent characters of a hyphen-collapse output both satisfy `p`. -/
theorem collapseAux_chain (p : Char → Bool) (b : Bool) (l : List Char) :
    List.Chain' (fun x y => ¬(p x = true ∧ p y = true)) (collapseAux p '-' b l) ∨
      p '-' = false := by
  by_cases hrep : p '-' = false
  · exact Or.inr hrep
  · left
    induction l generalizing b with
    | nil => simp [collapseAux]
    | cons a as ih =>
      by_cases hp : p a = true
      · cases b with
        | true =>
          rw [collapseAux_cons_pos_true p '-' hp]
          exact ih true
        | false =>
          rw [collapseAux_cons_pos_false p '-' hp, List.chain'_cons']
          refine ⟨?_, ih true⟩
          intro y hy
          have := collapseAux_true_head p '-' as y hy
          intro hcontra
          rw [this] at hcontra
          exact Bool.false_ne_true hcontra.2
      · rw [collapseAux_cons_neg p '-' b (Bool.eq_false_iff.mpr hp) as, List.chain'_cons']
        refine ⟨?_, ih false⟩
        intro y hy hcontra
        rw [hcontra.1] at hp
        exact hp rfl

-- Edge-hyphen stripping

theorem dropLeadHyphen_subset {l : List Char} {c : Char}
    (h : c ∈ dropLeadHyphen l) : c ∈ l := by
  cases l with
  | nil => simpa [dropLeadHyphen] using h
  | cons a as =>
    by_cases ha : a = '-'
    · simp only [dropLeadHyphen, ha, if_pos] at h
      exact List.mem_cons_of_mem _ h
    · simpa [dropLeadHyphen, ha] using h

theorem dropLeadHyphen_chain {R : Char → Char → Prop} {l : List Char}
    (h : List.Chain' R l) : List.Chain' R (dropLeadHyphen l) := by
  cases l with
  | nil => simpa [dropLeadHyphen] using h
  | cons a as =>
    by_cases ha : a = '-'
    · simp only [dropLeadHyphen, ha, if_pos]
      exact (List.chain'_cons'.mp h).2
    · simpa [dropLeadHyphen, ha] using h

theorem dropLeadHyphen_head {l : List Char}
    (h : List.Chain' (fun a b => ¬(a = '-' ∧ b = '-')) l) :
    ∀ c ∈ (dropLeadHyphen l).head?, c ≠ '-' := by
  cases l with
  | nil => simp [dropLeadHyphen]
  | cons a as =>
    by_cases ha : a = '-'
    · simp only [dropLeadHyphen, ha, if_pos]
      intro c hc
      cases as with
      | nil => simp at hc
      | cons b bs =>
        simp only [List.head?_cons, Option.mem_def, Option.some.injEq] at hc
        subst hc
        intro hcontra
        exact (List.chain'_cons'.mp h).1 b rfl ⟨ha, hcontra⟩
    · simp only [dropLeadHyphen, ha, if_neg, not_false_iff]
      intro c hc
      simp only [List.head?_cons, Option.mem_def, Option.some.injEq] at hc
      subst hc
      exact ha

theorem dropLeadHyphen_id {l : List Char}
    (h : ∀ c ∈ l.head?, c ≠ '-') : dropLeadHyphen l = l := by
  cases l with
  | nil => rfl
  | cons a as =>
    have ha : a ≠ '-' := h a (by simp)
    simp [dropLeadHyphen, ha]

theorem stripTrailHyphen_concat_hyphen (ys : List Char) :
    stripTrailHyphen (ys ++ ['-']) = ys := by
  simp [stripTrailHyphen, dropLeadHyphen]

theorem stripTrailHyphen_concat_ne {y : Char} (ys : List Char) (hy : y ≠ '-') :
    stripTrailHyphen (ys ++ [y]) = ys ++ [y] := by
  simp [stripTrailHyphen, dropLeadHyphen, hy]

theorem stripTrailHyphen_nil : stripTrailHyphen [] = [] := rfl

theorem stripTrailHyphen_subset {l : List Char} {c : Char}
    (h : c ∈ stripTrailHyphen l) : c ∈ l := by
  rcases List.eq_nil_or_concat l with rfl | ⟨ys, y, rfl⟩
  · simpa [stripTrailHyphen_nil] using h
  · rw [List.concat_eq_append] at h ⊢
    by_cases hy : y = '-'
    · subst hy
      rw [stripTrailHyphen_concat_hyphen] at h
      exact List.mem_append_left _ h
    · rwa [stripTrailHyphen_concat_ne _ hy] at h

theorem stripTrailHyphen_chain {R : Char → Char → Prop} {l : List Char}
    (h : List.Chain' R l) : List.Chain' R (stripTrailHyphen l) := by
  rcases List.eq_nil_or_concat l with rfl | ⟨ys, y, rfl⟩
  · simpa [stripTrailHyphen_nil]
  · rw [List.concat_eq_append] at h ⊢
    by_cases hy : y = '-'
    · subst hy
      rw [stripTrailHyphen_concat_hyphen]
      exact (List.chain'_append.mp h).1
    · rwa [stripTrailHyphen_concat_ne _ hy]

theorem stripTrailHyphen_head {l : List Char} {c : Char}
    (h : c ∈ (stripTrailHyphen l).head?) : c ∈ l.head? := by
  rcases List.eq_nil_or_concat l with rfl | ⟨ys, y, rfl⟩
  · simpa [stripTrailHyphen_nil] using h
  · rw [List.concat_eq_append] at h ⊢
    by_cases hy : y = '-'
    · subst hy
      rw [stripTrailHyphen_concat_hyphen] at h
      rw [List.head?_append]
      cases ys with
      | nil => simp at h
      | cons a as =>
        simp only [List.head?_cons, Option.mem_def, Option.some.injEq] at h
        simp [h]
    · rwa [stripTrailHyphen_concat_ne _ hy] at h

theorem stripTrailHyphen_last {l : List Char}
    (h : List.Chain' (fun a b => ¬(a = '-' ∧ b = '-')) l) :
    ∀ c ∈ (stripTrailHyphen l).getLast?, c ≠ '-' := by
  rcases List.eq_nil_or_concat l with rfl | ⟨ys, y, rfl⟩
  · simp [stripTrailHyphen_nil]
  · rw [List.concat_eq_append] at h ⊢
    by_cases hy : y = '-'
    · subst hy
      rw [stripTrailHyphen_concat_hyphen]
      intro c hc hcontra
      have hrel := (List.chain'_append.mp h).2.2
      exact hrel c hc '-' (by simp) ⟨hcontra, rfl⟩
    · rw [stripTrailHyphen_concat_ne _ hy]
      intro c hc
      rw [List.getLast?_concat] at hc
      simp only [Option.mem_def, Option.some.injEq] at hc
      subst hc
      exact hy

theorem stripTrailHyphen_id {l : List Char}
    (h : ∀ c ∈ l.getLast?, c ≠ '-') : stripTrailHyphen l = l := by
  rcases List.eq_nil_or_concat l with rfl | ⟨ys, y, rfl⟩
  · rfl
  · rw [List.concat_eq_append]
    have hy : y ≠ '-' := by
      apply h
      rw [List.concat_eq_append, List.getLast?_concat]
      rfl
    exact stripTrailHyphen_concat_ne _ hy

-- Shape of every sanitizer output

theorem sanitizeChars_allowed {l : List Char} :
    ∀ c ∈ sanitizeChars l, isAllowedChar c = true := by
  intro c hc
  unfold sanitizeChars stripEdgeHyphens at hc
  have hc2 := dropLeadHyphen_subset (stripTrailHyphen_subset hc)
  rcases collapseAux_mem hc2 with rfl | ⟨hmem, _⟩
  · exact isAllowedChar_hyphen
  · exact List.of_mem_filter hmem

theorem collapsedHyphens_chain (l : List Char) :
    List.Chain' (fun a b => ¬(a = '-' ∧ b = '-'))
      (collapseRuns (fun c => c == '-') '-' l) := by
  rcases collapseAux_chain (fun c => c == '-') false l with h | h
  · refine h.imp ?_
    intro a b hab ⟨ha, hb⟩
    exact hab ⟨by simp [ha], by simp [hb]⟩
  · simp at h

theorem sanitizeChars_chain {l : List Char} :
    List.Chain' (fun a b => ¬(a = '-' ∧ b = '-')) (sanitizeChars l) :=
  stripTrailHyphen_chain (dropLeadHyphen_chain (collapsedHyphens_chain _))

theorem sanitizeChars_head {l : List Char} :
    ∀ c ∈ (sanitizeChars l).head?, c ≠ '-' := by
  intro c hc
  exact dropLeadHyphen_head (collapsedHyphens_chain _) c (stripTrailHyphen_head hc)

theorem sanitizeChars_last {l : List Char} :
    ∀ c ∈ (sanitizeChars l).getLast?, c ≠ '-' :=
  stripTrailHyphen_last (dropLeadHyphen_chain (collapsedHyphens_chain _))

-- Identity of each pipeline stage on an already-sanitized value

theorem map_fixed_id {l : List α} {f : α → α} (h : ∀ c ∈ l, f c = c) :
    l.map f = l := by
  induction l with
  | nil => rfl
  | cons a as ih =>
    rw [List.map_cons, h a (List.mem_cons_self _ _),
      ih fun c hc => h c (List.mem_cons_of_mem _ hc)]

theorem dropWhile_all_false {p : α → Bool} {l : List α}
    (h : ∀ c ∈ l, p c = false) : l.dropWhile p = l := by
  cases l with
  | nil => rfl
  | cons a as => simp [List.dropWhile_cons, h a (List.mem_cons_self _ _)]

theorem trimList_id {l : List Char} (h : ∀ c ∈ l, jsWs c = false) :
    trimList l = l := by
  unfold trimList
  rw [dropWhile_all_false h, dropWhile_all_false, List.reverse_reverse]
  intro c hc
  exact h c (List.mem_reverse.mp hc)

theorem collapseAux_all_false_id {p : Char → Bool} {rep : Char} {l : List Char}
    (h : ∀ c ∈ l, p c = false) : collapseAux p rep false l = l := by
  induction l with
  | nil => rfl
  | cons a as ih =>
    have ha : p a = false := h a (List.mem_cons_self _ _)
    rw [collapseAux_cons_neg p rep false ha as,
      ih fun c hc => h c (List.mem_cons_of_mem _ hc)]

theorem collapseHyphen_id {l : List Char}
    (hch : List.Chain' (fun a b => ¬(a = '-' ∧ b = '-')) l) :
    collapseAux (fun c => c == '-') '-' false l = l := by
  induction l with
  | nil => rfl
  | cons a as ih =>
    by_cases ha : a = '-'
    · subst ha
      rw [collapseAux_cons_pos_false (fun c => c == '-') '-' (by simp) as]
      cases as with
      | nil => rfl
      | cons b bs =>
        have hb : b ≠ '-' := by
          intro hcontra
          exact (List.chain'_cons'.mp hch).1 b rfl ⟨rfl, hcontra⟩
        have hbeq : (b == '-') = false := by simp [hb]
        have hbs := ih ((List.chain'_cons'.mp hch).2)
        rw [collapseAux_cons_neg (fun c => c == '-') '-' false hbeq bs] at hbs
        rw [collapseAux_cons_neg (fun c => c == '-') '-' true hbeq bs, hbs]
    · have hbeq : (a == '-') = false := by simp [ha]
      rw [collapseAux_cons_neg (fun c => c == '-') '-' false hbeq as,
        ih ((List.chain'_cons'.mp hch).2)]

/-- The sanitizer is the identity on any value already of the output shape. -/
theorem sanitizeChars_fixed {l : List Char}
    (hall : ∀ c ∈ l, isAllowedChar c = true)
    (hch : List.Chain' (fun a b => ¬(a = '-' ∧ b = '-')) l)
    (hhd : ∀ c ∈ l.head?, c ≠ '-')
    (hlast : ∀ c ∈ l.getLast?, c ≠ '-') :
    sanitizeChars l = l := by
  unfold sanitizeChars stripEdgeHyphens collapseRuns
  rw [trimList_id (fun c hc => isAllowedChar_not_ws (hall c hc)),
    map_fixed_id (fun c hc => isAllowedChar_toLower (hall c hc)),
    collapseAux_all_false_id (fun c hc => isAllowedChar_not_ws (hall c hc)),
    List.filter_eq_self.mpr hall, collapseHyphen_id hch,
    dropLeadHyphen_id hhd, stripTrailHyphen_id hlast]

-- Digits of the fallback timestamp

theorem decDigit_isDigit {d : Nat} (h : d < 10) : (decDigit d).isDigit = true := by
  interval_cases d <;> decide

theorem natDigitsAux_spec : ∀ fuel n, n < fuel →
    natDigitsAux fuel n ≠ [] ∧ ∀ c ∈ natDigitsAux fuel n, c.isDigit = true := by
  intro fuel
  induction fuel with
  | zero => intro n h; omega
  | succ f ih =>
    intro n h
    by_cases h10 : n < 10
    · refine ⟨by simp [natDigitsAux, h10], ?_⟩
      intro c hc
      simp only [natDigitsAux, h10, if_pos, List.mem_singleton] at hc
      subst hc
      exact decDigit_isDigit h10
    · have hub : n / 10 < f := by omega
      refine ⟨by simp [natDigitsAux, h10], ?_⟩
      intro c hc
      simp only [natDigitsAux, h10, if_neg, not_false_iff, List.mem_append,
        List.mem_singleton] at hc
      rcases hc with hc | rfl
      · exact (ih _ hub).2 c hc
      · exact decDigit_isDigit (Nat.mod_lt _ (by omega))

theorem jsNatRepr_digits (n : Nat) :
    (jsNatRepr n).data ≠ [] ∧ ∀ c ∈ (jsNatRepr n).data, c.isDigit = true :=
  natDigitsAux_spec (n + 1) n (Nat.lt_succ_self n)

-- The default sort order

theorem lexLe_cons {x y : Char} {xs ys : List Char} :
    lexLe (x :: xs) (y :: ys) = true ↔ x < y ∨ (x = y ∧ lexLe xs ys = true) := by
  have hstep : lexLe (x :: xs) (y :: ys) =
      (if x < y then true else if y < x then false else lexLe xs ys) := rfl
  rw [hstep]
  by_cases h1 : x < y
  · simp [h1]
  · by_cases h2 : y < x
    · have hne : x ≠ y := by
        intro hcontra
        subst hcontra
        exact lt_irrefl x h2
      simp [h1, h2, hne]
    · have heq : x = y := le_antisymm (not_lt.mp h2) (not_lt.mp h1)
      simp [h1, h2, heq]

theorem lexLe_total : ∀ a b : List Char, lexLe a b = true ∨ lexLe b a = true := by
  intro a
  induction a with
  | nil => intro b; left; rfl
  | cons x xs ih =>
    intro b
    cases b with
    | nil => right; rfl
    | cons y ys =>
      by_cases h1 : x < y
      · left; exact lexLe_cons.mpr (Or.inl h1)
      · by_cases h2 : y < x
        · right; exact lexLe_cons.mpr (Or.inl h2)
        · have heq : x = y := le_antisymm (not_lt.mp h2) (not_lt.mp h1)
          rcases ih ys with h | h
          · left; exact lexLe_cons.mpr (Or.inr ⟨heq, h⟩)
          · right; exact lexLe_cons.mpr (Or.inr ⟨heq.symm, h⟩)

theorem lexLe_trans : ∀ a b c : List Char,
    lexLe a b = true → lexLe b c = true → lexLe a c = true := by
  intro a
  induction a with
  | nil => intro b c _ _; rfl
  | cons x xs ih =>
    intro b c hab hbc
    cases b with
    | nil => simp [lexLe] at hab
    | cons y ys =>
      cases c with
      | nil => simp [lexLe] at hbc
      | cons z zs =>
        rcases lexLe_cons.mp hab with hxy | ⟨hxy, hxs⟩ <;>
          rcases lexLe_cons.mp hbc with hyz | ⟨hyz, hys⟩
        · exact lexLe_cons.mpr (Or.inl (lt_trans hxy hyz))
        · exact lexLe_cons.mpr (Or.inl (hyz ▸ hxy))
        · exact lexLe_cons.mpr (Or.inl (hxy ▸ hyz))
        · exact lexLe_cons.mpr (Or.inr ⟨hxy.trans hyz, ih ys zs hxs hys⟩)

theorem strLe_total (a b : String) : strLe a b = true ∨ strLe b a = true :=
  lexLe_total a.data b.data

theorem strLe_trans (a b c : String) :
    strLe a b = true → strLe b c = true → strLe a c = true :=
  lexLe_trans a.data b.data c.data

theorem sortStrings_sorted (l : List String) :
    List.Sorted (fun a b => strLe a b = true) (sortStrings l) := by
  haveI : IsTotal String (fun a b => strLe a b = true) := ⟨strLe_total⟩
  haveI : IsTrans String (fun a b => strLe a b = true) := ⟨strLe_trans⟩
  exact List.sorted_insertionSort _ _

theorem sortStrings_perm (l : List String) : (sortStrings l).Perm l :=
  List.perm_insertionSort _ _

theorem sortStrings_nodup {l : List String} (h : l.Nodup) : (sortStrings l).Nodup :=
  (sortStrings_perm l).nodup_iff.mpr h

theorem keywordsOK_sort {l : List String} (h : l.Nodup) : KeywordsOK (sortStrings l) :=
  ⟨sortStrings_sorted l, sortStrings_nodup h⟩

-- Claim C4

/-- C4: the name sanitizer is idempotent — applying the sanitization
pipeline (trim, lowercase, whitespace runs to single hyphen, strip
characters outside `[a-z0-9-]`, collapse repeated hyphens, trim edge
hyphens) twice yields the same result as applying it once, for every
string. -/
theorem claim_c4_sanitizer_idempotent (s : String) :
    sanitize (sanitize s) = sanitize s :=
  congrArg String.mk
    (sanitizeChars_fixed sanitizeChars_allowed sanitizeChars_chain
      sanitizeChars_head sanitizeChars_last)

-- Claim C3

/-- C3: for every raw proposed title, the filename produced by the
generation service either (sanitized form non-empty) contains only
characters in `[a-z0-9-]` with no leading, trailing or doubled hyphen, or
(title sanitizes to empty) is the fallback `image-<digits>` derived from
the current time. -/
theorem claim_c3_generated_filename_shape (rawTitle : String) (now : Nat) :
    (sanitize rawTitle ≠ "" ∧ genFilename rawTitle now = sanitize rawTitle ∧
      (∀ c ∈ (genFilename rawTitle now).data, isAllowedChar c = true) ∧
      (∀ c ∈ (genFilename rawTitle now).data.head?, c ≠ '-') ∧
      (∀ c ∈ (genFilename rawTitle now).data.getLast?, c ≠ '-') ∧
      List.Chain' (fun a b => ¬(a = '-' ∧ b = '-')) (genFilename rawTitle now).data) ∨
    (sanitize rawTitle = "" ∧ genFilename rawTitle now = fallbackName now ∧
      (fallbackName now).data =
        ['i', 'm', 'a', 'g', 'e', '-'] ++ (jsNatRepr now).data ∧
      (jsNatRepr now).data ≠ [] ∧
      ∀ c ∈ (jsNatRepr now).data, c.isDigit = true) := by
  by_cases h : sanitize rawTitle = ""
  · right
    refine ⟨h, by simp [genFilename, h], ?_, (jsNatRepr_digits now).1,
      (jsNatRepr_digits now).2⟩
    rw [fallbackName, String.data_append]
  · left
    have hEq : genFilename rawTitle now = sanitize rawTitle := by
      simp [genFilename, h]
    refine ⟨h, hEq, ?_, ?_, ?_, ?_⟩ <;> rw [hEq]
    · exact sanitizeChars_allowed
    · exact sanitizeChars_head
    · exact sanitizeChars_last
    · exact sanitizeChars_chain

-- Claim C1

theorem keywordsOK_filter {kw : List String} (h : KeywordsOK kw) (p : String → Bool) :
    KeywordsOK (kw.filter p) :=
  ⟨h.1.filter p, h.2.filter p⟩

theorem keywordsOK_add {kw kws : List String} (h : KeywordsOK kw) (hkws : kws.Nodup) :
    KeywordsOK (sortStrings (kw ++ kws.filter fun k => !(kw.contains k))) := by
  apply keywordsOK_sort
  refine List.Nodup.append h.2 (hkws.filter _) ?_
  refine List.disjoint_right.mpr ?_
  intro a ha
  have := List.of_mem_filter ha
  simpa using this

/-- C1 (amended): after the generation-success transition, per-item add,
bulk application and per-item removal, every item's keyword collection is
sorted ascending and duplicate-free, provided every collection already
satisfied the invariant and the incoming keyword list is itself
duplicate-free (the code sorts but never deduplicates the incoming list). -/
theorem claim_c1_keywords_sorted_nodup (coll : List ProcessedImage)
    (id filename : String) (kws : List String)
    (hcoll : ∀ img ∈ coll, KeywordsOK img.keywords) (hkws : kws.Nodup) :
    (∀ img ∈ applySuccess id filename kws coll, KeywordsOK img.keywords) ∧
    (∀ img ∈ handleAddKeywords id kws coll, KeywordsOK img.keywords) ∧
    (∀ img ∈ handleAddKeywordsToAll kws coll, KeywordsOK img.keywords) ∧
    (∀ kw : String, ∀ img ∈ handleRemoveKeyword id kw coll, KeywordsOK img.keywords) := by
  refine ⟨?_, ?_, ?_, ?_⟩
  · intro img hmem
    rcases List.mem_map.mp hmem with ⟨orig, horig, rfl⟩
    by_cases h : orig.id = id
    · simpa [h] using keywordsOK_sort hkws
    · simpa [h] using hcoll orig horig
  · intro img hmem
    rcases List.mem_map.mp hmem with ⟨orig, horig, rfl⟩
    show KeywordsOK
      (if orig.id = id then
        (if 0 < (kws.filter fun k => !(orig.keywords.contains k)).length then
          { orig with keywords :=
              sortStrings (orig.keywords ++ kws.filter fun k => !(orig.keywords.contains k)) }
        else orig)
      else orig).keywords
    by_cases h : orig.id = id
    · rw [if_pos h]
      by_cases hlen : 0 < (kws.filter fun k => !(orig.keywords.contains k)).length
      · rw [if_pos hlen]
        exact keywordsOK_add (hcoll orig horig) hkws
      · rw [if_neg hlen]
        exact hcoll orig horig
    · rw [if_neg h]
      exact hcoll orig horig
  · intro img hmem
    unfold handleAddKeywordsToAll at hmem
    by_cases hguard : kws.length = 0 ∨ (successfulImages coll).length = 0
    · rw [if_pos hguard] at hmem
      exact hcoll img hmem
    · rw [if_neg hguard] at hmem
      rcases List.mem_map.mp hmem with ⟨orig, horig, rfl⟩
      show KeywordsOK
        (if orig.suggestedName != "" then
          (if 0 < (kws.filter fun k => !(orig.keywords.contains k)).length then
            { orig with keywords :=
                sortStrings (orig.keywords ++ kws.filter fun k => !(orig.keywords.contains k)) }
          else orig)
        else orig).keywords
      by_cases h : (orig.suggestedName != "") = true
      · rw [if_pos h]
        by_cases hlen : 0 < (kws.filter fun k => !(orig.keywords.contains k)).length
        · rw [if_pos hlen]
          exact keywordsOK_add (hcoll orig horig) hkws
        · rw [if_neg hlen]
          exact hcoll orig horig
      · rw [if_neg h]
        exact hcoll orig horig
  · intro kw img hmem
    rcases List.mem_map.mp hmem with ⟨orig, horig, rfl⟩
    by_cases h : orig.id = id
    · simpa [h] using keywordsOK_filter (hcoll orig horig) _
    · simpa [h] using hcoll orig horig

/-- C1 witness: the amended invariant holds on a concrete two-item
collection with a concrete duplicate-free keyword list. -/
theorem claim_c1_keywords_witness :
    (∀ img ∈ applySuccess itemDone.id "n" ["sunset", "travel"] [itemP1, itemDone],
      KeywordsOK img.keywords) ∧
    (∀ img ∈ handleAddKeywords itemDone.id ["sunset", "travel"] [itemP1, itemDone],
      KeywordsOK img.keywords) ∧
    (∀ img ∈ handleAddKeywordsToAll ["sunset", "travel"] [itemP1, itemDone],
      KeywordsOK img.keywords) ∧
    (∀ kw : String, ∀ img ∈ handleRemoveKeyword itemDone.id kw [itemP1, itemDone],
      KeywordsOK img.keywords) :=
  claim_c1_keywords_sorted_nodup [itemP1, itemDone] itemDone.id "n"
    ["sunset", "travel"] (by decide) (by decide)

/-- C1 counterexample: the generation-success transition stores the
external result's keyword list unchanged apart from sorting, so a result
containing the same keyword twice leaves a duplicate in the item's keyword
collection, refuting the claim that the collection never contains
duplicates after that transition. -/
theorem claim_c1_counterexample :
    (applySuccess itemP1.id "name" ["x", "x"] [itemP1]).map (fun img => img.keywords) =
      [["x", "x"]] ∧ ¬ (["x", "x"] : List String).Nodup := by
  refine ⟨by decide, by decide⟩

-- Claims C5, C10, C6: per-item result application

theorem applyFailure_startGeneration (id msg : String) (coll : List ProcessedImage) :
    applyFailure id msg (startGeneration id coll) =
      coll.map fun img =>
        if img.id = id then { img with isLoading := false, error := some msg }
        else img := by
  unfold applyFailure startGeneration
  rw [List.map_map]
  apply List.map_congr_left
  intro img _
  by_cases h : img.id = id
  · simp [Function.comp, h]
  · simp [Function.comp, h]

/-- C5: applying a generation result addressed to an identity that is no
longer in the collection leaves the collection exactly unchanged (success,
failure, and the whole controller, which also issues no call), and any
result application leaves every item with a different identity untouched. -/
theorem claim_c5_removed_item_noop (id filename msg : String) (kws : List String)
    (coll : List ProcessedImage) (habs : ∀ img ∈ coll, img.id ≠ id) :
    applySuccess id filename kws coll = coll ∧
    applyFailure id msg coll = coll ∧
    startGeneration id coll = coll ∧
    (∀ (outcome : Except String GenRaw) (now : Nat),
      handleGenerateNameForImage outcome now id coll = (coll, false)) ∧
    (∀ (c : List ProcessedImage),
      (applySuccess id filename kws c).length = c.length ∧
      (applyFailure id msg c).length = c.length ∧
      ∀ i : Nat, ∀ img ∈ c.get? i, img.id ≠ id →
        (applySuccess id filename kws c).get? i = some img ∧
        (applyFailure id msg c).get? i = some img) := by
  have hnone : coll.find? (fun img => img.id == id) = none := by
    rw [List.find?_eq_none]
    intro img hmem
    simp [habs img hmem]
  refine ⟨?_, ?_, ?_, ?_, ?_⟩
  · exact map_fixed_id fun img hmem => if_neg (habs img hmem)
  · exact map_fixed_id fun img hmem => if_neg (habs img hmem)
  · exact map_fixed_id fun img hmem => if_neg (habs img hmem)
  · intro outcome now
    unfold handleGenerateNameForImage
    rw [hnone]
  · intro c
    refine ⟨List.length_map _ _, List.length_map _ _, ?_⟩
    intro i img himg hne
    rw [Option.mem_def] at himg
    constructor
    · rw [applySuccess, List.get?_map, himg, Option.map_some', if_neg hne]
    · rw [applyFailure, List.get?_map, himg, Option.map_some', if_neg hne]

/-- C5 witness: a concrete collection not containing the addressed
identity is left unchanged by both result applications. -/
theorem claim_c5_removed_item_witness :
    applySuccess "ghost" "n" ["k"] [itemP1] = [itemP1] ∧
    applyFailure "ghost" "boom" [itemP1] = [itemP1] ∧
    startGeneration "ghost" [itemP1] = [itemP1] ∧
    (∀ (outcome : Except String GenRaw) (now : Nat),
      handleGenerateNameForImage outcome now "ghost" [itemP1] = ([itemP1], false)) ∧
    (∀ (c : List ProcessedImage),
      (applySuccess "ghost" "n" ["k"] c).length = c.length ∧
      (applyFailure "ghost" "boom" c).length = c.length ∧
      ∀ i : Nat, ∀ img ∈ c.get? i, img.id ≠ "ghost" →
        (applySuccess "ghost" "n" ["k"] c).get? i = some img ∧
        (applyFailure "ghost" "boom" c).get? i = some img) :=
  claim_c5_removed_item_noop "ghost" "n" "boom" ["k"] [itemP1] (by decide)

/-- C10: when a generation request for an existing item fails, only that
item's loading flag and error field change; its suggested name and keyword
collection (and identity, payload, extension, preview handle) are
untouched, every other item is untouched, and the set of exportable
(successful) items is unchanged. -/
theorem claim_c10_failure_preserves_name_keywords (coll : List ProcessedImage)
    (id msg : String) :
    (applyFailure id msg (startGeneration id coll)).length = coll.length ∧
    (∀ i : Nat, ∀ img ∈ coll.get? i,
      (img.id ≠ id →
        (applyFailure id msg (startGeneration id coll)).get? i = some img) ∧
      (img.id = id →
        (applyFailure id msg (startGeneration id coll)).get? i =
          some { img with isLoading := false, error := some msg }) ∧
      (∀ img2 ∈ (applyFailure id msg (startGeneration id coll)).get? i,
        img2.suggestedName = img.suggestedName ∧ img2.keywords = img.keywords ∧
        img2.id = img.id ∧ img2.file = img.file ∧
        img2.originalExtension = img.originalExtension ∧
        img2.imageUrl = img.imageUrl)) ∧
    (successfulImages (applyFailure id msg (startGeneration id coll))).map
        (fun img => img.id) =
      (successfulImages coll).map fun img => img.id := by
  rw [applyFailure_startGeneration]
  refine ⟨List.length_map _ _, ?_, ?_⟩
  · intro i img himg
    rw [Option.mem_def] at himg
    rw [List.get?_map, himg, Option.map_some']
    refine ⟨fun hne => by rw [if_neg hne], fun heq => by rw [if_pos heq], ?_⟩
    intro img2 himg2
    rw [Option.mem_def, Option.some.injEq] at himg2
    subst himg2
    by_cases h : img.id = id
    · simp [h]
    · simp [h]
  · unfold successfulImages
    rw [List.filter_map, List.map_map]
    have hfil :
        (coll.filter
          ((fun img => img.suggestedName != "") ∘ fun img =>
            if img.id = id then { img with isLoading := false, error := some msg }
            else img)) =
          coll.filter fun img => img.suggestedName != "" := by
      apply List.filter_congr
      intro img _
      by_cases h : img.id = id
      · simp [Function.comp, h]
      · simp [Function.comp, h]
    rw [hfil]
    apply List.map_congr_left
    intro img _
    by_cases h : img.id = id
    · simp [Function.comp, h]
    · simp [Function.comp, h]

/-- C10 witness: concrete failure application on a collection holding a
previously successful item and a pending item. -/
theorem claim_c10_failure_witness :
    (applyFailure itemDone.id "boom" (startGeneration itemDone.id [itemDone, itemP1])).length =
      ([itemDone, itemP1] : List ProcessedImage).length ∧
    (∀ i : Nat, ∀ img ∈ ([itemDone, itemP1] : List ProcessedImage).get? i,
      (img.id ≠ itemDone.id →
        (applyFailure itemDone.id "boom" (startGeneration itemDone.id [itemDone, itemP1])).get? i =
          some img) ∧
      (img.id = itemDone.id →
        (applyFailure itemDone.id "boom" (startGeneration itemDone.id [itemDone, itemP1])).get? i =
          some { img with isLoading := false, error := some "boom" }) ∧
      (∀ img2 ∈ (applyFailure itemDone.id "boom" (startGeneration itemDone.id [itemDone, itemP1])).get? i,
        img2.suggestedName = img.suggestedName ∧ img2.keywords = img.keywords ∧
        img2.id = img.id ∧ img2.file = img.file ∧
        img2.originalExtension = img.originalExtension ∧
        img2.imageUrl = img.imageUrl)) ∧
    (successfulImages (applyFailure itemDone.id "boom" (startGeneration itemDone.id [itemDone, itemP1]))).map
        (fun img => img.id) =
      (successfulImages [itemDone, itemP1]).map fun img => img.id :=
  claim_c10_failure_preserves_name_keywords [itemDone, itemP1] itemDone.id "boom"

-- Claim C6

/-- C6: a failing external call against an existing item is absorbed by the
controller into a per-item failed state — loading cleared and the message
stored on that item only, every other item untouched — and the stored
message is the distinct rate-limit text exactly when the lowercased textual
form of the failure contains one of the markers `429`,
`resource_exhausted` or `rate limit`, the generic text otherwise. -/
theorem claim_c6_failure_classification (coll : List ProcessedImage)
    (id rawError : String) (now : Nat) (hex : ∃ img ∈ coll, img.id = id) :
    handleGenerateNameForImage (Except.error rawError) now id coll =
      (applyFailure id (classifyError rawError) (startGeneration id coll), true) ∧
    (classifyError rawError = rateLimitMessage ↔
      isRateLimitText (jsToLowerStr rawError) = true) ∧
    (classifyError rawError = genericFailureMessage ↔
      isRateLimitText (jsToLowerStr rawError) = false) ∧
    (∀ i : Nat, ∀ img ∈ coll.get? i,
      (img.id = id →
        (handleGenerateNameForImage (Except.error rawError) now id coll).1.get? i =
          some { img with isLoading := false, error := some (classifyError rawError) }) ∧
      (img.id ≠ id →
        (handleGenerateNameForImage (Except.error rawError) now id coll).1.get? i =
          some img)) := by
  have hMsgNe : rateLimitMessage ≠ genericFailureMessage := by decide
  obtain ⟨w, hw, hwid⟩ := hex
  have hsome : (coll.find? fun img => img.id == id).isSome :=
    List.find?_isSome.mpr ⟨w, hw, by simp [hwid]⟩
  obtain ⟨x, hx⟩ := Option.isSome_iff_exists.mp hsome
  have hrun : handleGenerateNameForImage (Except.error rawError) now id coll =
      (applyFailure id (classifyError rawError) (startGeneration id coll), true) := by
    unfold handleGenerateNameForImage
    rw [hx]
    rfl
  refine ⟨hrun, ?_, ?_, ?_⟩
  · unfold classifyError
    by_cases h : isRateLimitText (jsToLowerStr rawError) = true
    · rw [if_pos h]
      exact ⟨fun _ => h, fun _ => rfl⟩
    · rw [if_neg h]
      exact ⟨fun hcontra => absurd hcontra.symm hMsgNe, fun hcontra => absurd hcontra h⟩
  · unfold classifyError
    by_cases h : isRateLimitText (jsToLowerStr rawError) = true
    · rw [if_pos h]
      refine ⟨fun hcontra => absurd hcontra hMsgNe, fun hcontra => ?_⟩
      rw [h] at hcontra
      exact absurd hcontra (by decide)
    · rw [if_neg h]
      exact ⟨fun _ => Bool.eq_false_iff.mpr h, fun _ => rfl⟩
  · intro i img himg
    rw [hrun]
    rw [Option.mem_def] at himg
    rw [applyFailure_startGeneration, List.get?_map, himg, Option.map_some']
    constructor
    · intro heq
      rw [if_pos heq]
    · intro hne
      rw [if_neg hne]

/-- C6 witness: a rate-limit-marked failure and an existing item. -/
theorem claim_c6_failure_witness :
    handleGenerateNameForImage (Except.error "HTTP 429 Too Many Requests") 5 itemP1.id [itemP1] =
      (applyFailure itemP1.id (classifyError "HTTP 429 Too Many Requests")
        (startGeneration itemP1.id [itemP1]), true) ∧
    (classifyError "HTTP 429 Too Many Requests" = rateLimitMessage ↔
      isRateLimitText (jsToLowerStr "HTTP 429 Too Many Requests") = true) ∧
    (classifyError "HTTP 429 Too Many Requests" = genericFailureMessage ↔
      isRateLimitText (jsToLowerStr "HTTP 429 Too Many Requests") = false) ∧
    (∀ i : Nat, ∀ img ∈ ([itemP1] : List ProcessedImage).get? i,
      (img.id = itemP1.id →
        (handleGenerateNameForImage (Except.error "HTTP 429 Too Many Requests") 5 itemP1.id [itemP1]).1.get? i =
          some { img with
            isLoading := false
            error := some (classifyError "HTTP 429 Too Many Requests") }) ∧
      (img.id ≠ itemP1.id →
        (handleGenerateNameForImage (Except.error "HTTP 429 Too Many Requests") 5 itemP1.id [itemP1]).1.get? i =
          some img)) :=
  claim_c6_failure_classification [itemP1] itemP1.id "HTTP 429 Too Many Requests" 5
    ⟨itemP1, by decide, rfl⟩

-- Claim C2

theorem map_ids_update {f : ProcessedImage → ProcessedImage}
    (hf : ∀ img, (f img).id = img.id) (coll : List ProcessedImage) :
    (coll.map f).map (fun img => img.id) = coll.map fun img => img.id := by
  rw [List.map_map]
  exact List.map_congr_left fun a _ => hf a

theorem startGeneration_ids (id : String) (coll : List ProcessedImage) :
    (startGeneration id coll).map (fun img => img.id) = coll.map fun img => img.id :=
  map_ids_update (fun img => by by_cases h : img.id = id <;> simp [h]) coll

theorem applySuccess_ids (id filename : String) (kws : List String)
    (coll : List ProcessedImage) :
    (applySuccess id filename kws coll).map (fun img => img.id) =
      coll.map fun img => img.id :=
  map_ids_update (fun img => by by_cases h : img.id = id <;> simp [h]) coll

theorem applyFailure_ids (id msg : String) (coll : List ProcessedImage) :
    (applyFailure id msg coll).map (fun img => img.id) = coll.map fun img => img.id :=
  map_ids_update (fun img => by by_cases h : img.id = id <;> simp [h]) coll

theorem handleGenerate_ids (outcome : Except String GenRaw) (now : Nat) (id : String)
    (coll : List ProcessedImage) :
    ((handleGenerateNameForImage outcome now id coll).1).map (fun img => img.id) =
      coll.map fun img => img.id := by
  unfold handleGenerateNameForImage
  cases hfind : coll.find? (fun img => img.id == id) with
  | none => rfl
  | some x =>
    cases hdet : generateImageDetails now outcome with
    | ok d =>
      show (applySuccess id d.filename d.keywords (startGeneration id coll)).map _ = _
      rw [applySuccess_ids, startGeneration_ids]
    | error msg =>
      show (applyFailure id msg (startGeneration id coll)).map _ = _
      rw [applyFailure_ids, startGeneration_ids]

theorem handleGenerate_called (outcome : Except String GenRaw) (now : Nat) (id : String)
    (coll : List ProcessedImage) (hex : ∃ img ∈ coll, img.id = id) :
    (handleGenerateNameForImage outcome now id coll).2 = true := by
  obtain ⟨w, hw, hwid⟩ := hex
  have hsome : (coll.find? fun img => img.id == id).isSome :=
    List.find?_isSome.mpr ⟨w, hw, by simp [hwid]⟩
  obtain ⟨x, hx⟩ := Option.isSome_iff_exists.mp hsome
  unfold handleGenerateNameForImage
  rw [hx]
  cases generateImageDetails now outcome <;> rfl

theorem runBatch_trace (env : GenEnv)
    (hpres : ∀ (k : Nat) (c : List ProcessedImage),
      ∀ s ∈ c.map (fun img => img.id), s ∈ (env.interfere k c).map fun img => img.id) :
    ∀ (ids : List String) (k t : Nat) (coll : List ProcessedImage),
      (∀ i ∈ ids, i ∈ coll.map fun img => img.id) →
      (runBatch env ids k t coll).2 = pacedCallSchedule env.duration ids t := by
  intro ids
  induction ids with
  | nil => intro k t coll _; rfl
  | cons id rest ih =>
    intro k t coll hids
    have hid1 : id ∈ (env.interfere k coll).map fun img => img.id :=
      hpres k coll id (hids id (List.mem_cons_self _ _))
    have hex : ∃ img ∈ env.interfere k coll, img.id = id := by
      rcases List.mem_map.mp hid1 with ⟨img, hmem, heq⟩
      exact ⟨img, hmem, heq⟩
    have hcalled := handleGenerate_called (env.outcome id) (t + env.duration id) id
      (env.interfere k coll) hex
    have hrest : ∀ i ∈ rest,
        i ∈ ((handleGenerateNameForImage (env.outcome id) (t + env.duration id) id
          (env.interfere k coll)).1).map fun img => img.id := by
      intro i hi
      rw [handleGenerate_ids]
      exact hpres k coll i (hids i (List.mem_cons_of_mem _ hi))
    simp only [runBatch, pacedCallSchedule]
    rw [hcalled]
    simp only [if_true]
    rw [ih (k + 1) (t + env.duration id + 1100) _ hrest]

theorem runBatch_trace_sublist (env : GenEnv) :
    ∀ (ids : List String) (k t : Nat) (coll : List ProcessedImage),
      ((runBatch env ids k t coll).2.map Prod.fst).Sublist ids := by
  intro ids
  induction ids with
  | nil => intro k t coll; simp [runBatch]
  | cons id rest ih =>
    intro k t coll
    simp only [runBatch]
    by_cases h : (handleGenerateNameForImage (env.outcome id) (t + env.duration id) id
        (env.interfere k coll)).2 = true
    · rw [h]
      simp only [if_pos rfl, List.map_cons]
      exact List.Sublist.cons₂ _ (ih _ _ _)
    · rw [Bool.eq_false_iff.mpr h]
      simp only [Bool.false_eq_true, if_neg, not_false_iff]
      exact List.Sublist.cons _ (ih _ _ _)

/-- C2: a batch run snapshots the pending-and-not-loading items once at
start and, when no interleaved edit removes a snapshotted item, issues
exactly one generation call per snapshotted item, strictly one at a time in
collection order, the next call starting exactly 1100 ms after the previous
item's processing completed; for every environment the calls are drawn from
the start-of-batch snapshot, so items added after batch start are never
called in that run. -/
theorem claim_c2_batch_sequencing (env : GenEnv) (coll : List ProcessedImage)
    (t0 : Nat)
    (hpres : ∀ (k : Nat) (c : List ProcessedImage),
      ∀ s ∈ c.map (fun img => img.id), s ∈ (env.interfere k c).map fun img => img.id) :
    (handleGenerateAllNames env t0 coll).2 =
      pacedCallSchedule env.duration (pendingIds coll) t0 ∧
    ∀ (env2 : GenEnv) (t1 : Nat),
      (((handleGenerateAllNames env2 t1 coll).2).map Prod.fst).Sublist
        (pendingIds coll) := by
  constructor
  · apply runBatch_trace env hpres
    intro i hi
    unfold pendingIds at hi
    rcases List.mem_map.mp hi with ⟨img, hmem, rfl⟩
    exact List.mem_map.mpr ⟨img, List.mem_of_mem_filter hmem, rfl⟩
  · intro env2 t1
    exact runBatch_trace_sublist env2 (pendingIds coll) 0 t1 coll

/-- C2 witness: a three-item collection with two pending items, a
non-interfering environment and 7 ms call durations gives exactly the two
paced calls, 1107 ms apart. -/
theorem claim_c2_batch_witness :
    (handleGenerateAllNames envC2 0 [itemP1, itemDone, itemP2]).2 =
      [(itemP1.id, 0), (itemP2.id, 1107)] ∧
    (((handleGenerateAllNames envC2 0 [itemP1, itemDone, itemP2]).2).map Prod.fst).Sublist
      (pendingIds [itemP1, itemDone, itemP2]) := by
  have h := claim_c2_batch_sequencing envC2 [itemP1, itemDone, itemP2] 0
    (fun k c s hs => hs)
  exact ⟨h.1.trans (by decide), h.2 envC2 0⟩

-- Claim C7

/-- C7: the CSV export is the header `New File Name,Keywords` followed by
one data row per item with a non-empty suggested name — error and loading
flags notwithstanding — the rows sorted ascending by suggested name under
the comparator, each row the quoted name-plus-extension followed by the
quoted comma-joined keyword list. -/
theorem claim_c7_csv_export (le : String → String → Bool) (coll : List ProcessedImage)
    (htot : ∀ a b : String, le a b = true ∨ le b a = true)
    (htrans : ∀ a b c : String, le a b = true → le b c = true → le a c = true) :
    handleDownloadCsv le coll =
      "New File Name,Keywords\n" ++
        jsJoin "\n" ((sortBySuggestedName le (successfulImages coll)).map csvRow) ∧
    successfulImages coll = (coll.filter fun img => img.suggestedName != "") ∧
    (sortBySuggestedName le (successfulImages coll)).Perm (successfulImages coll) ∧
    List.Sorted (fun a b => le a.suggestedName b.suggestedName = true)
      (sortBySuggestedName le (successfulImages coll)) ∧
    (sortBySuggestedName le (successfulImages coll)).length =
      (successfulImages coll).length ∧
    ∀ img : ProcessedImage, csvRow img =
      "\"" ++ img.suggestedName ++ img.originalExtension ++ "\",\"" ++
        jsJoin ", " img.keywords ++ "\"" := by
  refine ⟨rfl, rfl, List.perm_insertionSort _ _, ?_,
    (List.perm_insertionSort _ _).length_eq, fun img => rfl⟩
  haveI : IsTotal ProcessedImage (fun a b => le a.suggestedName b.suggestedName = true) :=
    ⟨fun a b => htot _ _⟩
  haveI : IsTrans ProcessedImage (fun a b => le a.suggestedName b.suggestedName = true) :=
    ⟨fun a b c => htrans _ _ _⟩
  exact List.sorted_insertionSort _ _

/-- C7 witness: the export of a concrete two-item collection under the
code-unit comparator, with the `city-lights` row before the `sunset-walk`
row. -/
theorem claim_c7_csv_witness :
    handleDownloadCsv strLe [itemDone, itemDone2] =
      "New File Name,Keywords\n\"city-lights.png\",\"city\"\n\"sunset-walk.png\",\"beach, sunset\"" ∧
    (sortBySuggestedName strLe (successfulImages [itemDone, itemDone2])).Perm
      (successfulImages [itemDone, itemDone2]) ∧
    List.Sorted (fun a b => strLe a.suggestedName b.suggestedName = true)
      (sortBySuggestedName strLe (successfulImages [itemDone, itemDone2])) := by
  have h := claim_c7_csv_export strLe [itemDone, itemDone2] strLe_total strLe_trans
  exact ⟨h.1.trans (by decide), h.2.2.1, h.2.2.2.1⟩

-- Claim C9

theorem lastDotIdx_none {l : List Char} : lastDotIdx l = none ↔ '.' ∉ l := by
  induction l with
  | nil => simp [lastDotIdx]
  | cons c cs ih =>
    cases hcs : lastDotIdx cs with
    | some j =>
      have hmem : '.' ∈ cs := by
        by_contra hcontra
        rw [← ih] at hcontra
        rw [hcontra] at hcs
        exact Option.noConfusion hcs
      simp [lastDotIdx, hcs, hmem]
    | none =>
      by_cases hc : c = '.'
      · simp [lastDotIdx, hcs, hc]
      · have hcs' : '.' ∉ cs := ih.mp hcs
        simp [lastDotIdx, hcs, hc, hcs']
        exact fun hcontra => absurd hcontra.symm hc

theorem lastDotIdx_spec {l : List Char} {j : Nat} (h : lastDotIdx l = some j) :
    j < l.length ∧ (l.drop j).head? = some '.' ∧ '.' ∉ l.drop (j + 1) := by
  induction l generalizing j with
  | nil => simp [lastDotIdx] at h
  | cons c cs ih =>
    cases hcs : lastDotIdx cs with
    | some i =>
      rw [lastDotIdx, hcs] at h
      rw [Option.some.injEq] at h
      subst h
      obtain ⟨h1, h2, h3⟩ := ih hcs
      refine ⟨by simpa using Nat.succ_lt_succ h1, ?_, ?_⟩
      · rwa [List.drop_succ_cons]
      · rwa [List.drop_succ_cons]
    | none =>
      rw [lastDotIdx, hcs] at h
      by_cases hc : c = '.'
      · rw [if_pos hc] at h
        rw [Option.some.injEq] at h
        subst h
        refine ⟨by simp, by simp [hc], ?_⟩
        rw [List.drop_succ_cons, List.drop_zero]
        exact lastDotIdx_none.mp hcs
      · rw [if_neg hc] at h
        exact Option.noConfusion h

theorem lastDotIdx_append {pre post : List Char} (h : '.' ∉ post) :
    lastDotIdx (pre ++ '.' :: post) = some pre.length := by
  induction pre with
  | nil =>
    have hpost : lastDotIdx post = none := lastDotIdx_none.mpr h
    simp [lastDotIdx, hpost]
  | cons c cs ih =>
    show lastDotIdx (c :: (cs ++ '.' :: post)) = some (cs.length + 1)
    rw [lastDotIdx, ih]

theorem fileExtOf_some {name : String} {j : Nat} (h : lastDotIdx name.data = some j)
    (hlt : j < name.data.length) :
    fileExtOf name = String.mk (name.data.drop j) := by
  unfold fileExtOf jsLastIndexOfDot
  rw [h]
  show String.mk (name.data.drop
      (if ((j : Int)) < 0 then max ((name.data.length : Int) + (j : Int)) 0
       else min (j : Int) (name.data.length : Int)).toNat) = _
  have hidx : (if ((j : Int)) < 0 then max ((name.data.length : Int) + (j : Int)) 0
      else min (j : Int) (name.data.length : Int)).toNat = j := by
    rw [if_neg (by omega)]
    omega
  rw [hidx]

theorem fileExtOf_none {name : String} (h : lastDotIdx name.data = none) :
    fileExtOf name = String.mk (name.data.drop (name.data.length - 1)) := by
  unfold fileExtOf jsLastIndexOfDot
  rw [h]
  show String.mk (name.data.drop
      (if ((-1 : Int)) < 0 then max ((name.data.length : Int) + (-1 : Int)) 0
       else min (-1 : Int) (name.data.length : Int)).toNat) = _
  have hidx : (if ((-1 : Int)) < 0 then max ((name.data.length : Int) + (-1 : Int)) 0
      else min (-1 : Int) (name.data.length : Int)).toNat = name.data.length - 1 := by
    rw [if_pos (by omega)]
    omega
  rw [hidx]

theorem drop_length_sub_one {l : List Char} {c : Char} (h : l.getLast? = some c) :
    l.drop (l.length - 1) = [c] := by
  induction l with
  | nil => simp at h
  | cons a as ih =>
    cases as with
    | nil =>
      simp at h
      subst h
      rfl
    | cons b bs =>
      rw [List.getLast?_cons_cons] at h
      have hlen : (a :: b :: bs).length - 1 = (b :: bs).length := by simp
      rw [hlen]
      show (b :: bs).drop ((b :: bs).length - 1 + 1 - 1) = [c]
      have : (b :: bs).length - 1 + 1 - 1 = (b :: bs).length - 1 := by simp
      rw [this]
      exact ih h

/-- C9: the stored original extension is the suffix of the uploaded name
from its last `'.'` when the name contains one; when it contains none,
`lastIndexOf` returns `-1` and `slice(-1)` keeps only the final character,
so a non-empty extensionless name acquires a spurious one-character
extension and the stored extension is never empty for a non-empty name. -/
theorem claim_c9_extension_capture (name : String) :
    (∀ pre post : List Char, name.data = pre ++ '.' :: post → '.' ∉ post →
      fileExtOf name = String.mk ('.' :: post)) ∧
    ('.' ∉ name.data → ∀ c ∈ name.data.getLast?, fileExtOf name = String.mk [c]) ∧
    (name.data ≠ [] → (fileExtOf name).data ≠ []) := by
  refine ⟨?_, ?_, ?_⟩
  · intro pre post hdecomp hpost
    have hld : lastDotIdx name.data = some pre.length := by
      rw [hdecomp]
      exact lastDotIdx_append hpost
    have hlt : pre.length < name.data.length := by
      rw [hdecomp]
      simp
    rw [fileExtOf_some hld hlt, hdecomp]
    rw [List.drop_left]
  · intro hnotin c hc
    have hld := lastDotIdx_none.mpr hnotin
    rw [Option.mem_def] at hc
    rw [fileExtOf_none hld, drop_length_sub_one hc]
  · intro hne
    cases hld : lastDotIdx name.data with
    | some j =>
      obtain ⟨hlt, hhead, _⟩ := lastDotIdx_spec hld
      rw [fileExtOf_some hld hlt]
      intro hcontra
      have : (name.data.drop j) = [] := hcontra
      rw [this] at hhead
      exact Option.noConfusion hhead
    | none =>
      have hgl : ∃ c, name.data.getLast? = some c := by
        cases hl : name.data.getLast? with
        | some c => exact ⟨c, rfl⟩
        | none => exact absurd (List.getLast?_eq_none.mp hl) hne
      obtain ⟨c, hc⟩ := hgl
      rw [fileExtOf_none hld, drop_length_sub_one hc]
      intro hcontra
      exact List.noConfusion hcontra

/-- C9 witness: a doubly-dotted name keeps its last-dot suffix, and a
dotless name gets its final character as a one-character extension. -/
theorem claim_c9_extension_witness :
    fileExtOf "photo.old.png" = ".png" ∧ fileExtOf "README" = "E" ∧
    (fileExtOf "README").data ≠ [] := by
  have h1 := claim_c9_extension_capture "photo.old.png"
  have h2 := claim_c9_extension_capture "README"
  refine ⟨?_, ?_, h2.2.2 (by decide)⟩
  · exact (h1.1 "photo.old".data "png".data (by decide) (by decide)).trans (by decide)
  · exact (h2.2.1 (by decide) 'E' (by decide)).trans (by decide)

-- Claim C8

theorem string_data_inj {r s : String} (h : r.data = s.data) : r = s := by
  cases r
  cases s
  exact congrArg String.mk h

theorem takeWhile_all_stop {p : Char → Bool} {xs : List Char}
    (hxs : ∀ c ∈ xs, p c = true) {y : Char} (hy : p y = false) (ys : List Char) :
    (xs ++ y :: ys).takeWhile p = xs := by
  induction xs with
  | nil => simp [List.takeWhile_cons, hy]
  | cons a as ih =>
    rw [List.cons_append, List.takeWhile_cons,
      hxs a (List.mem_cons_self _ _)]
    rw [ih fun c hc => hxs c (List.mem_cons_of_mem _ hc)]
    rfl

theorem randPart_mkId (f : FileData) (r : String) (hr : ('-' : Char) ∉ r.data) :
    randPart (mkId f r) = r.data := by
  unfold randPart mkId
  rw [String.data_append, List.reverse_append]
  have hstep : (f.name ++ "-" ++ jsNatRepr f.lastModified ++ "-").data =
      (f.name ++ "-" ++ jsNatRepr f.lastModified).data ++ ['-'] := by
    rw [String.data_append]
  rw [hstep, List.reverse_append]
  have hall : ∀ c ∈ r.data.reverse, (decide (c ≠ '-') : Bool) = true := by
    intro c hc
    have hmem : c ∈ r.data := List.mem_reverse.mp hc
    simp only [decide_eq_true_eq, ne_eq]
    intro hcontra
    subst hcontra
    exact hr hmem
  have hsingle : (['-'] : List Char).reverse = ['-'] := rfl
  rw [hsingle, List.singleton_append]
  rw [takeWhile_all_stop hall (by simp) _]
  exact List.reverse_reverse _

theorem mkId_rand_inj {f g : FileData} {r s : String} (hr : ('-' : Char) ∉ r.data)
    (hs : ('-' : Char) ∉ s.data) (h : mkId f r = mkId g s) : r = s := by
  have hp := congrArg randPart h
  rw [randPart_mkId f r hr, randPart_mkId g s hs] at hp
  exact string_data_inj hp

theorem enumFrom_pairwise_lt (n : Nat) (l : List α) :
    (l.enumFrom n).Pairwise fun p q => p.1 < q.1 := by
  induction l generalizing n with
  | nil => simp
  | cons a as ih =>
    rw [List.enumFrom_cons]
    refine List.Pairwise.cons ?_ (ih (n + 1))
    intro q hq
    have := (List.mem_enumFrom hq).1
    omega

theorem stepOp_preserve (rnd : Nat → String) (s : UploadState) (op : AppOp)
    (hfs : ∃ fs : List FileData, fs.length = s.ctr ∧
      s.log = (fs.enumFrom 0).map fun p => mkId p.2 (rnd p.1))
    (hsub : (s.coll.map fun img => img.id).Sublist s.log) :
    (∃ fs : List FileData, fs.length = (stepOp rnd s op).ctr ∧
      (stepOp rnd s op).log = (fs.enumFrom 0).map fun p => mkId p.2 (rnd p.1)) ∧
    ((stepOp rnd s op).coll.map fun img => img.id).Sublist (stepOp rnd s op).log := by
  obtain ⟨fs, hlen, hlog⟩ := hfs
  cases op with
  | remove id =>
    refine ⟨⟨fs, hlen, hlog⟩, ?_⟩
    show ((s.coll.filter fun img => img.id != id).map fun img => img.id).Sublist s.log
    exact ((List.filter_sublist s.coll).map _).trans hsub
  | upload files =>
    have hnewids : (handleImageUpload rnd s.ctr files).map (fun img => img.id) =
        ((files.filter fun f => strStartsWith f.fileType "image/").enumFrom s.ctr).map
          fun p => mkId p.2 (rnd p.1) := by
      unfold handleImageUpload
      rw [List.map_map]
      rfl
    have hnewlen : (handleImageUpload rnd s.ctr files).length =
        (files.filter fun f => strStartsWith f.fileType "image/").length := by
      unfold handleImageUpload
      rw [List.length_map, List.enumFrom_length]
    by_cases h0 : 0 < (handleImageUpload rnd s.ctr files).length
    · have hstep : stepOp rnd s (AppOp.upload files) =
          { coll := s.coll ++ handleImageUpload rnd s.ctr files
            ctr := s.ctr + (handleImageUpload rnd s.ctr files).length
            log := s.log ++ (handleImageUpload rnd s.ctr files).map fun img => img.id } := by
        simp only [stepOp]
        rw [if_pos h0]
      rw [hstep]
      refine ⟨⟨fs ++ files.filter fun f => strStartsWith f.fileType "image/", ?_, ?_⟩, ?_⟩
      · rw [List.length_append, hlen, hnewlen]
      · show s.log ++ (handleImageUpload rnd s.ctr files).map (fun img => img.id) = _
        rw [List.enumFrom_append, List.map_append, ← hlog, hnewids, hlen, Nat.zero_add]
      · show ((s.coll ++ handleImageUpload rnd s.ctr files).map fun img => img.id).Sublist _
        rw [List.map_append]
        exact List.Sublist.append hsub (List.Sublist.refl _)
    · have hnil : handleImageUpload rnd s.ctr files = [] :=
        List.length_eq_zero.mp (by omega)
      have hstep : stepOp rnd s (AppOp.upload files) =
          { s with ctr := s.ctr + (handleImageUpload rnd s.ctr files).length } := by
        simp only [stepOp]
        rw [if_neg h0]
      rw [hstep]
      exact ⟨⟨fs, by rw [hnil, hlen]; rfl, hlog⟩, hsub⟩

theorem runOps_aux (rnd : Nat → String) :
    ∀ (ops : List AppOp) (s : UploadState),
      (∃ fs : List FileData, fs.length = s.ctr ∧
        s.log = (fs.enumFrom 0).map fun p => mkId p.2 (rnd p.1)) →
      ((s.coll.map fun img => img.id).Sublist s.log) →
      (∃ fs : List FileData, fs.length = (ops.foldl (stepOp rnd) s).ctr ∧
        (ops.foldl (stepOp rnd) s).log =
          (fs.enumFrom 0).map fun p => mkId p.2 (rnd p.1)) ∧
      (((ops.foldl (stepOp rnd) s).coll.map fun img => img.id).Sublist
        (ops.foldl (stepOp rnd) s).log) := by
  intro ops
  induction ops with
  | nil => intro s hfs hsub; exact ⟨hfs, hsub⟩
  | cons op rest ih =>
    intro s hfs hsub
    obtain ⟨hfs', hsub'⟩ := stepOp_preserve rnd s op hfs hsub
    exact ih (stepOp rnd s op) hfs' hsub'

/-- C8 (amended): provided the random draws of the session are pairwise
distinct and hyphen-free — `Math.random()` gives no such guarantee, only
high probability — all identities ever assigned are pairwise distinct, the
live collection's identities are drawn from that assignment log, and hence
live identities are pairwise distinct and a removed identity is never
reassigned. -/
theorem claim_c8_identity_uniqueness (rnd : Nat → String) (ops : List AppOp)
    (hinj : ∀ m n : Nat, rnd m = rnd n → m = n)
    (hdash : ∀ n : Nat, ('-' : Char) ∉ (rnd n).data) :
    (runOps rnd ops).log.Nodup ∧
    ((runOps rnd ops).coll.map fun img => img.id).Sublist (runOps rnd ops).log ∧
    ((runOps rnd ops).coll.map fun img => img.id).Nodup := by
  have base1 : ∃ fs : List FileData, fs.length = emptyState.ctr ∧
      emptyState.log = (fs.enumFrom 0).map fun p => mkId p.2 (rnd p.1) :=
    ⟨[], rfl, rfl⟩
  have base2 : (emptyState.coll.map fun img => img.id).Sublist emptyState.log := by
    simp [emptyState]
  obtain ⟨⟨fs, hlen, hlog⟩, hsub⟩ := runOps_aux rnd ops emptyState base1 base2
  have hnodup : (List.foldl (stepOp rnd) emptyState ops).log.Nodup := by
    rw [hlog]
    refine List.Pairwise.map _ ?_ (enumFrom_pairwise_lt 0 fs)
    intro p q hpq heq
    exact absurd (hinj _ _ (mkId_rand_inj (hdash p.1) (hdash q.1) heq)) (Nat.ne_of_lt hpq)
  exact ⟨hnodup, hsub, hsub.nodup hnodup⟩

/-- C8 witness: with distinct hyphen-free draws, uploading two files and
removing one leaves a duplicate-free log and collection. -/
theorem claim_c8_identity_witness :
    (runOps rndDistinct [AppOp.upload [fileA, fileB], AppOp.remove (mkId fileA "")]).log.Nodup ∧
    ((runOps rndDistinct [AppOp.upload [fileA, fileB], AppOp.remove (mkId fileA "")]).coll.map
      fun img => img.id).Sublist
      (runOps rndDistinct [AppOp.upload [fileA, fileB], AppOp.remove (mkId fileA "")]).log ∧
    ((runOps rndDistinct [AppOp.upload [fileA, fileB], AppOp.remove (mkId fileA "")]).coll.map
      fun img => img.id).Nodup := by
  refine claim_c8_identity_uniqueness rndDistinct _ ?_ ?_
  · intro m n h
    have := congrArg (fun s => s.data.length) h
    simpa [rndDistinct] using this
  · intro n hmem
    rw [rndDistinct] at hmem
    have := List.eq_of_mem_replicate hmem
    exact absurd this (by decide)

/-- C8 counterexample: with colliding random draws — which `Math.random()`
does not rule out — uploading the same file twice yields two live items
with the same identity token, refuting the unconditional uniqueness
claim. -/
theorem claim_c8_counterexample :
    ((runOps rndConst [AppOp.upload [fileA], AppOp.upload [fileA]]).coll.map
      fun img => img.id) = ["a.jpg-3-0.5", "a.jpg-3-0.5"] ∧
    ¬ ((runOps rndConst [AppOp.upload [fileA], AppOp.upload [fileA]]).coll.map
      fun img => img.id).Nodup :=
  ⟨by decide, by decide⟩
